import Mathlib

/-!
Verification of the codebasin platform-association and mapping core.

A shallow embedding of `codebasin/walkers.py`: the `NodeAssociation` /
`NodeAssociationMap` data model, the branch-aware `TreeAssociator`
traversal, and the `TreeMapper` / `PlatformMapper` aggregation of
per-node line counts into maps keyed by frozen platform-sets.

Trees of nodes are embedded as a rose tree `Node`; node identity (Python
keys association maps by object identity) is embedded as a numeric id
`nid` carried by each node.  A node's dynamic classification
(`is_start_node()`, `is_cont_node()`, `is_end_node()`, `FileNode` type,
presence of `num_lines`) and its `evaluate_for_platform` capability are
carried as fields of `NodeInfo`; platform identity is its name (spec §3),
so the evaluation capability is embedded as a boolean function of the
platform name.
-/

/-- The data of one tree node: identity, classification flags, line
count, and the applicability capability `evaluate_for_platform`
(supplied by the external parser; non-branching nodes always report
applicable). -/
structure NodeInfo where
  nid : Nat
  is_file : Bool
  filename : String
  has_num_lines : Bool
  num_lines : Nat
  is_start : Bool
  is_cont : Bool
  is_end : Bool
  evaluate_for_platform : String → Bool

/-- A conditional-structure tree node with its ordered children. -/
inductive Node where
  | mk : NodeInfo → List Node → Node

def Node.info : Node → NodeInfo
  | .mk i _ => i

def Node.children : Node → List Node
  | .mk _ cs => cs

/-- The record `NodeAssociation.platforms` is a duplicate-free list of platform
names; `NodeAssociation.add_platform` embeds
`if _platform not in self.platforms: self.platforms.update([_platform])`. -/
def NodeAssociation.add_platform (ps : List String) (p : String) : List String :=
  if p ∈ ps then ps else ps ++ [p]

/-- A `NodeAssociationMap`: an insertion-ordered finite map from node
identity to its association record, embedding the Python dict
`_node_associations`. -/
abbrev AssocMap := List (Nat × List String)

/-- Dict lookup by node identity. -/
def assocLookup : AssocMap → Nat → Option (List String)
  | [], _ => none
  | (k', ps) :: rest, k => if k' = k then some ps else assocLookup rest k

/-- Embedding of `NodeAssociationMap.prepare_node`: create an empty association
record for a node not yet present. -/
def NodeAssociationMap.prepare_node (m : AssocMap) (k : Nat) : AssocMap :=
  if (assocLookup m k).isSome then m else m ++ [(k, [])]

/-- Apply `NodeAssociation.add_platform` to the record stored at key `k`. -/
def updateRecord : AssocMap → Nat → String → AssocMap
  | [], _, _ => []
  | (k', ps) :: rest, k, p =>
    if k' = k then (k', NodeAssociation.add_platform ps p) :: rest
    else (k', ps) :: updateRecord rest k p

/-- Embedding of `NodeAssociationMap.add_platform`: prepare the node, then add the
platform to its record. -/
def NodeAssociationMap.add_platform (m : AssocMap) (k : Nat) (p : String) : AssocMap :=
  updateRecord (NodeAssociationMap.prepare_node m k) k p

/-- Embedding of `NodeAssociationMap.get_association`: the record for a node, or the
explicit absent result `none` if the node was never prepared. -/
def NodeAssociationMap.get_association (m : AssocMap) (k : Nat) : Option (List String) :=
  assocLookup m k

mutual
/-- Embedding of `TreeAssociator._associate_nodes`: record the platform on the node,
then, if `process_children` and the node evaluates applicable, descend
into the children maintaining the branch-group `process_child` flag.
Returns the updated association map and `node_processed`. -/
def associate_nodes (n : Node) (p : String) (m : AssocMap) (process_children : Bool) :
    AssocMap × Bool :=
  match n with
  | .mk i cs =>
    let m1 := NodeAssociationMap.add_platform m i.nid p
    if process_children && i.evaluate_for_platform p then
      (associateChildren cs p m1 true, true)
    else
      (m1, false)

/-- The child loop of `TreeAssociator._associate_nodes`: recurse into
each child with the current `process_child` flag, then update the flag
(`child_processed and (start or cont)` clears it; `not process_child and
is_end` restores it). -/
def associateChildren (cs : List Node) (p : String) (m : AssocMap) (process_child : Bool) :
    AssocMap :=
  match cs with
  | [] => m
  | c :: rest =>
    let r := associate_nodes c p m process_child
    let pc' := if r.2 && (c.info.is_start || c.info.is_cont) then false
               else if !process_child && c.info.is_end then true else process_child
    associateChildren rest p r.1 pc'
end

/-- Embedding of `TreeAssociator.walk`: associate from the root with
`process_children = true`, discarding the returned flag. -/
def TreeAssociator.walk (tree : Node) (p : String) (m : AssocMap) : AssocMap :=
  (associate_nodes tree p m true).1

mutual
/-- Ghost companion of `associate_nodes`: the list of node ids on which
`_associate_nodes` is invoked (hence on which the platform is recorded)
during one traversal.  Mirrors the recursion exactly; used only to state
and prove lemmas. -/
def touched (n : Node) (p : String) (pc : Bool) : List Nat :=
  match n with
  | .mk i cs =>
    i.nid :: (if pc && i.evaluate_for_platform p then touchedChildren cs p true else [])

def touchedChildren (cs : List Node) (p : String) (pc : Bool) : List Nat :=
  match cs with
  | [] => []
  | c :: rest =>
    let pr := pc && c.info.evaluate_for_platform p
    let pc' := if pr && (c.info.is_start || c.info.is_cont) then false
               else if !pc && c.info.is_end then true else pc
    touched c p pc ++ touchedChildren rest p pc'
end

mutual
/-- All node ids occurring in a subtree. -/
def nids (n : Node) : List Nat :=
  match n with
  | .mk i cs => i.nid :: nidsList cs

def nidsList (cs : List Node) : List Nat :=
  match cs with
  | [] => []
  | c :: rest => nids c ++ nidsList rest
end

/-- The aggregation state of a `TreeMapper`: `line_map` embeds the
`defaultdict(int)` from frozen platform-set to line count, `file_map`
the dict from frozen platform-set to per-file line counts.  Frozen
platform-sets (`frozenset`) are embedded as `Finset String`, whose
equality is set equality regardless of insertion order. -/
structure MapperState where
  line_map : List (Finset String × Nat)
  file_map : List (Finset String × List (String × Nat))
deriving DecidableEq

/-- Increment an entry of an insertion-ordered counter map, creating a
zero-valued entry on first touch (the `defaultdict(int)` behavior). -/
def bumpCounter {α : Type} [DecidableEq α] : List (α × Nat) → α → Nat → List (α × Nat)
  | [], key, n => [(key, 0 + n)]
  | (k', v) :: rest, key, n =>
    if k' = key then (k', v + n) :: rest else (k', v) :: bumpCounter rest key n

/-- Look up a counter map, reading absent entries as zero. -/
def counterGet {α : Type} [DecidableEq α] : List (α × Nat) → α → Nat
  | [], _ => 0
  | (k', v) :: rest, key => if k' = key then v else counterGet rest key

/-- Update the per-file counter stored under a platform-set key of
`file_map`, creating the inner `defaultdict(int)` on first touch. -/
def bumpFileMap : List (Finset String × List (String × Nat)) → Finset String → String → Nat →
    List (Finset String × List (String × Nat))
  | [], key, fn, n => [(key, bumpCounter [] fn n)]
  | (k', fm) :: rest, key, fn, n =>
    if k' = key then (k', bumpCounter fm fn n) :: rest
    else (k', fm) :: bumpFileMap rest key fn n

/-- One accumulation step of `PlatformMapper._map_node` on a code node:
`line_map[platform] += num_lines` and `file_map[platform][fn] += num_lines`
(zero entries created on first touch). -/
def bumpState (st : MapperState) (key : Finset String) (fn : String) (n : Nat) : MapperState :=
  { line_map := bumpCounter st.line_map key n
    file_map := bumpFileMap st.file_map key fn n }

mutual
/-- Embedding of `PlatformMapper._map_node`: skip file nodes whose filename is not in
the codebase; for code nodes (`num_lines` present, not a `FileNode`)
accumulate under the frozen platform-set of the node's association
record, or under the distinguished empty set if the record is absent;
then descend into children. -/
def map_node (codebase : List String) (fn : String) (n : Node) (m : AssocMap)
    (st : MapperState) : MapperState :=
  match n with
  | .mk i cs =>
    if i.is_file && !(i.filename ∈ codebase) then st
    else
      let st1 :=
        if i.has_num_lines && !i.is_file then
          match NodeAssociationMap.get_association m i.nid with
          | some ps => bumpState st ps.toFinset fn i.num_lines
          | none => bumpState st (∅ : Finset String) fn i.num_lines
        else st
      mapChildren codebase fn cs m st1

/-- The child loop of `PlatformMapper._map_node`. -/
def mapChildren (codebase : List String) (fn : String) (cs : List Node) (m : AssocMap)
    (st : MapperState) : MapperState :=
  match cs with
  | [] => st
  | c :: rest => mapChildren codebase fn rest m (map_node codebase fn c m st)
end

/-- One file of the analysis state: its path, its conditional-structure
tree, and its association map (as consumed via `state.get_filenames()`,
`state.get_tree(fn)` and `state.get_map(fn)`). -/
structure FileEntry where
  filename : String
  tree : Node
  assoc : AssocMap

/-- The analysis state over which the mapper walks. -/
structure CBIState where
  files : List FileEntry

/-- Embedding of `TreeMapper.walk` as specialized by `PlatformMapper`: if the line
map is empty, map every file's tree; otherwise return the previously
computed maps unchanged. -/
def PlatformMapper.walk (codebase : List String) (st : MapperState) (state : CBIState) :
    MapperState :=
  if st.line_map.isEmpty then
    state.files.foldl (fun acc f => map_node codebase f.filename f.tree f.assoc acc) st
  else st

/-- The fresh mapper state built by the `TreeMapper` constructor. -/
def MapperState.init : MapperState := ⟨[], []⟩

/-! Lemmas about the association-map dictionary operations. -/

theorem assocLookup_append_single_ne (m : AssocMap) (k j : Nat) (ps : List String)
    (h : j ≠ k) : assocLookup (m ++ [(j, ps)]) k = assocLookup m k := by
  induction m with
  | nil => simp [assocLookup, h]
  | cons hd tl ih =>
    obtain ⟨k', ps'⟩ := hd
    by_cases hk : k' = k <;> simp [assocLookup, hk, ih]

theorem assocLookup_append_single_self (m : AssocMap) (k : Nat) (ps : List String)
    (h : assocLookup m k = none) : assocLookup (m ++ [(k, ps)]) k = some ps := by
  induction m with
  | nil => simp [assocLookup]
  | cons hd tl ih =>
    obtain ⟨k', ps'⟩ := hd
    by_cases hk : k' = k
    · simp [assocLookup, hk] at h
    · simp [assocLookup, hk] at h ⊢
      exact ih h

theorem assocLookup_prepare_self (m : AssocMap) (k : Nat) :
    assocLookup (NodeAssociationMap.prepare_node m k) k =
      some ((assocLookup m k).getD []) := by
  unfold NodeAssociationMap.prepare_node
  cases h : assocLookup m k with
  | none => simp [h, assocLookup_append_single_self m k [] h]
  | some ps => simp [h]

theorem assocLookup_prepare_ne (m : AssocMap) (k j : Nat) (h : j ≠ k) :
    assocLookup (NodeAssociationMap.prepare_node m j) k = assocLookup m k := by
  unfold NodeAssociationMap.prepare_node
  cases hj : assocLookup m j with
  | none => simp [hj, assocLookup_append_single_ne m k j [] h]
  | some ps => simp [hj]

theorem assocLookup_updateRecord_self (m : AssocMap) (k : Nat) (p : String) :
    assocLookup (updateRecord m k p) k =
      (assocLookup m k).map (fun ps => NodeAssociation.add_platform ps p) := by
  induction m with
  | nil => simp [updateRecord, assocLookup]
  | cons hd tl ih =>
    obtain ⟨k', ps'⟩ := hd
    by_cases hk : k' = k <;> simp [updateRecord, assocLookup, hk, ih]

theorem assocLookup_updateRecord_ne (m : AssocMap) (k j : Nat) (p : String) (h : j ≠ k) :
    assocLookup (updateRecord m j p) k = assocLookup m k := by
  induction m with
  | nil => simp [updateRecord]
  | cons hd tl ih =>
    obtain ⟨k', ps'⟩ := hd
    by_cases hj : k' = j
    · subst hj
      simp [updateRecord, assocLookup, h, ih]
    · by_cases hk : k' = k <;> simp [updateRecord, assocLookup, hj, hk, ih, Ne.symm h]

theorem assocLookup_add_platform_self (m : AssocMap) (k : Nat) (p : String) :
    assocLookup (NodeAssociationMap.add_platform m k p) k =
      some (NodeAssociation.add_platform ((assocLookup m k).getD []) p) := by
  unfold NodeAssociationMap.add_platform
  rw [assocLookup_updateRecord_self, assocLookup_prepare_self]
  rfl

theorem assocLookup_add_platform_ne (m : AssocMap) (k j : Nat) (p : String) (h : j ≠ k) :
    assocLookup (NodeAssociationMap.add_platform m j p) k = assocLookup m k := by
  unfold NodeAssociationMap.add_platform
  rw [assocLookup_updateRecord_ne _ _ _ _ h, assocLookup_prepare_ne _ _ _ h]

theorem mem_add_platform (ps : List String) (p q : String) :
    q ∈ NodeAssociation.add_platform ps p ↔ q ∈ ps ∨ q = p := by
  unfold NodeAssociation.add_platform
  by_cases h : p ∈ ps
  · simp only [h, if_true]
    constructor
    · exact Or.inl
    · rintro (hq | rfl) <;> [exact hq; exact h]
  · simp [h]

/-- The platform name `q` is a member of the association record stored for
node id `k` (reading an absent record as an empty set of platforms). -/
def platMem (m : AssocMap) (k : Nat) (q : String) : Prop :=
  q ∈ (assocLookup m k).getD []

instance (m : AssocMap) (k : Nat) (q : String) : Decidable (platMem m k q) :=
  inferInstanceAs (Decidable (q ∈ (assocLookup m k).getD []))

theorem platMem_add_platform (m : AssocMap) (k j : Nat) (p q : String) :
    platMem (NodeAssociationMap.add_platform m j p) k q ↔
      platMem m k q ∨ (k = j ∧ q = p) := by
  unfold platMem
  by_cases hk : k = j
  · subst hk
    rw [assocLookup_add_platform_self]
    simp [mem_add_platform]
  · rw [assocLookup_add_platform_ne m k j p (fun he => hk he.symm)]
    simp [hk]

theorem platMem_prepare (m : AssocMap) (k j : Nat) (q : String) (h : platMem m k q) :
    platMem (NodeAssociationMap.prepare_node m j) k q := by
  unfold platMem at h ⊢
  by_cases hk : k = j
  · subst hk
    rw [assocLookup_prepare_self]
    simpa using h
  · rwa [assocLookup_prepare_ne m k j (fun he => hk he.symm)]

/-! Lemmas about the branch-aware associator traversal. -/

theorem associate_nodes_snd (n : Node) (p : String) (m : AssocMap) (pc : Bool) :
    (associate_nodes n p m pc).2 = (pc && n.info.evaluate_for_platform p) := by
  match n with
  | .mk i cs =>
    by_cases h : (pc && i.evaluate_for_platform p) = true <;>
      simp [associate_nodes, Node.info, h]

theorem associate_nodes_not_processed (n : Node) (p : String) (m : AssocMap) (pc : Bool)
    (h : (pc && n.info.evaluate_for_platform p) = false) :
    associate_nodes n p m pc = (NodeAssociationMap.add_platform m n.info.nid p, false) := by
  match n with
  | .mk i cs =>
    simp only [Node.info] at h
    simp [associate_nodes, h, Node.info]

theorem touched_not_processed (n : Node) (p : String) (pc : Bool)
    (h : (pc && n.info.evaluate_for_platform p) = false) :
    touched n p pc = [n.info.nid] := by
  match n with
  | .mk i cs =>
    simp only [Node.info] at h
    simp [touched, h, Node.info]

mutual
theorem lookup_associate_not_touched (n : Node) (p : String) (m : AssocMap) (pc : Bool)
    (k : Nat) (h : k ∉ touched n p pc) :
    assocLookup (associate_nodes n p m pc).1 k = assocLookup m k := by
  match n with
  | .mk i cs =>
    simp only [touched, List.mem_cons, not_or] at h
    obtain ⟨h1, h2⟩ := h
    by_cases hc : (pc && i.evaluate_for_platform p) = true
    · simp only [associate_nodes, hc, if_true]
      rw [lookup_associateChildren_not_touched cs p _ true k (by simpa [hc] using h2)]
      exact assocLookup_add_platform_ne m k i.nid p (fun he => h1 he.symm)
    · simp only [associate_nodes, hc, if_false]
      exact assocLookup_add_platform_ne m k i.nid p (fun he => h1 he.symm)

theorem lookup_associateChildren_not_touched (cs : List Node) (p : String) (m : AssocMap)
    (pc : Bool) (k : Nat) (h : k ∉ touchedChildren cs p pc) :
    assocLookup (associateChildren cs p m pc) k = assocLookup m k := by
  match cs with
  | [] => rfl
  | c :: rest =>
    simp only [touchedChildren, List.mem_append, not_or] at h
    obtain ⟨h1, h2⟩ := h
    simp only [associateChildren]
    rw [associate_nodes_snd c p m pc]
    rw [lookup_associateChildren_not_touched rest p _ _ k h2]
    exact lookup_associate_not_touched c p m pc k h1
end

mutual
theorem platMem_associate (n : Node) (p : String) (m : AssocMap) (pc : Bool)
    (k : Nat) (q : String) :
    platMem (associate_nodes n p m pc).1 k q ↔
      platMem m k q ∨ (q = p ∧ k ∈ touched n p pc) := by
  match n with
  | .mk i cs =>
    by_cases hc : (pc && i.evaluate_for_platform p) = true
    · simp only [associate_nodes, hc, if_true, touched]
      rw [platMem_associateChildren cs p _ true k q]
      rw [platMem_add_platform m k i.nid p q]
      simp only [hc, if_true, List.mem_cons]
      tauto
    · replace hc : (pc && i.evaluate_for_platform p) = false := by simpa using hc
      simp only [associate_nodes, touched, hc, Bool.false_eq_true, if_false]
      rw [platMem_add_platform m k i.nid p q]
      simp only [List.mem_cons, List.not_mem_nil, or_false]
      tauto

theorem platMem_associateChildren (cs : List Node) (p : String) (m : AssocMap)
    (pc : Bool) (k : Nat) (q : String) :
    platMem (associateChildren cs p m pc) k q ↔
      platMem m k q ∨ (q = p ∧ k ∈ touchedChildren cs p pc) := by
  match cs with
  | [] => simp [associateChildren, touchedChildren]
  | c :: rest =>
    simp only [associateChildren, touchedChildren]
    rw [associate_nodes_snd c p m pc]
    rw [platMem_associateChildren rest p _ _ k q]
    rw [platMem_associate c p m pc k q]
    simp only [List.mem_append]
    tauto
end

theorem nid_mem_touched (n : Node) (p : String) (pc : Bool) :
    n.info.nid ∈ touched n p pc := by
  match n with
  | .mk i cs => simp [touched, Node.info]

theorem mem_touchedChildren_of_mem (cs : List Node) (c : Node) (p : String)
    (h : c ∈ cs) : ∀ pc, c.info.nid ∈ touchedChildren cs p pc := by
  induction cs with
  | nil => cases h
  | cons d rest ih =>
    intro pc
    rcases List.mem_cons.mp h with rfl | hmem
    · simp only [touchedChildren, List.mem_append]
      exact Or.inl (nid_mem_touched c p pc)
    · simp only [touchedChildren, List.mem_append]
      exact Or.inr (ih hmem _)

mutual
theorem touched_subset_nids (n : Node) (p : String) (pc : Bool) (k : Nat)
    (h : k ∈ touched n p pc) : k ∈ nids n := by
  match n with
  | .mk i cs =>
    simp only [touched, List.mem_cons] at h
    simp only [nids, List.mem_cons]
    rcases h with rfl | h
    · exact Or.inl rfl
    · by_cases hc : (pc && i.evaluate_for_platform p) = true
      · simp only [hc, if_true] at h
        exact Or.inr (touchedChildren_subset_nidsList cs p true k h)
      · simp [hc] at h

theorem touchedChildren_subset_nidsList (cs : List Node) (p : String) (pc : Bool) (k : Nat)
    (h : k ∈ touchedChildren cs p pc) : k ∈ nidsList cs := by
  match cs with
  | [] => simp [touchedChildren] at h
  | c :: rest =>
    simp only [touchedChildren, List.mem_append] at h
    simp only [nidsList, List.mem_append]
    rcases h with h | h
    · exact Or.inl (touched_subset_nids c p pc k h)
    · exact Or.inr (touchedChildren_subset_nidsList rest p _ k h)
end

theorem touchedChildren_conts (mids rest : List Node) (p : String)
    (hend : ∀ c ∈ mids, c.info.is_end = false) :
    touchedChildren (mids ++ rest) p false =
      mids.map (fun c => c.info.nid) ++ touchedChildren rest p false := by
  induction mids with
  | nil => simp
  | cons c cs ih =>
    have hce : c.info.is_end = false := hend c (List.mem_cons_self c cs)
    have hflag : (if (false && c.info.evaluate_for_platform p
          && (c.info.is_start || c.info.is_cont)) = true then false
        else if (!false && c.info.is_end) = true then true else false) = false := by
      simp [hce]
    simp only [List.cons_append, touchedChildren]
    rw [touched_not_processed c p false (by simp)]
    rw [hflag]
    simp only [List.append_eq]
    rw [ih (fun d hd => hend d (List.mem_cons_of_mem c hd))]
    simp

theorem touchedChildren_plain_flag (post : List Node) (p : String)
    (h : ∀ x ∈ post, x.info.is_start = false ∧ x.info.is_cont = false)
    (q : Node) (hq : q ∈ post) :
    ∀ j ∈ touched q p true, j ∈ touchedChildren post p true := by
  induction post with
  | nil => cases hq
  | cons d rest ih =>
    intro j hj
    have hd := h d (List.mem_cons_self d rest)
    have hflag : (if (true && d.info.evaluate_for_platform p
          && (d.info.is_start || d.info.is_cont)) = true then false
        else if (!true && d.info.is_end) = true then true else true) = true := by
      simp [hd.1, hd.2]
    rcases List.mem_cons.mp hq with rfl | hmem
    · simp only [touchedChildren, List.mem_append]
      exact Or.inl hj
    · simp only [touchedChildren, List.mem_append, hflag]
      exact Or.inr (ih (fun x hx => h x (List.mem_cons_of_mem d hx)) hmem j hj)

/-! Lemmas about the node ids of a subtree. -/

theorem nidsList_append (a b : List Node) : nidsList (a ++ b) = nidsList a ++ nidsList b := by
  induction a with
  | nil => simp [nidsList]
  | cons c cs ih => simp [nidsList, ih]

theorem nid_mem_nids (n : Node) : n.info.nid ∈ nids n := by
  match n with
  | .mk i cs => simp [nids, Node.info]

theorem mem_nids_of_mem_children (n : Node) (k : Nat) (h : k ∈ nidsList n.children) :
    k ∈ nids n := by
  match n with
  | .mk i cs =>
    simp only [Node.children] at h
    simp [nids, h]

theorem mem_nidsList_of_mem (cs : List Node) (c : Node) (k : Nat) (hc : c ∈ cs)
    (hk : k ∈ nids c) : k ∈ nidsList cs := by
  induction cs with
  | nil => cases hc
  | cons d rest ih =>
    simp only [nidsList, List.mem_append]
    rcases List.mem_cons.mp hc with rfl | hmem
    · exact Or.inl hk
    · exact Or.inr (ih hmem)

theorem descendant_not_top (cs : List Node) (c : Node) (k : Nat)
    (hnd : (nidsList cs).Nodup) (hc : c ∈ cs) (hk : k ∈ nidsList c.children) :
    k ∉ cs.map (fun x => x.info.nid) := by
  induction cs with
  | nil => cases hc
  | cons d rest ih =>
    simp only [nidsList] at hnd
    rw [List.nodup_append] at hnd
    obtain ⟨hd1, hd2, hdisj⟩ := hnd
    simp only [List.map_cons, List.mem_cons, not_or]
    rcases List.mem_cons.mp hc with rfl | hmem
    · constructor
      · intro he
        match c, hk with
        | .mk i ccs, hk =>
          simp only [Node.children] at hk
          simp only [nids, Node.info] at hd1 he
          rw [List.nodup_cons] at hd1
          exact hd1.1 (he ▸ hk)
      · intro hmem'
        obtain ⟨x, hx, hxe⟩ := List.mem_map.mp hmem'
        have hkc : k ∈ nids c := mem_nids_of_mem_children c k hk
        have hkr : k ∈ nidsList rest := mem_nidsList_of_mem rest x k hx (hxe ▸ nid_mem_nids x)
        exact (hdisj hkc) hkr
    · constructor
      · intro he
        have hkc : k ∈ nids c := mem_nids_of_mem_children c k hk
        have hkr : k ∈ nidsList rest := mem_nidsList_of_mem rest c k hmem hkc
        exact (hdisj (he ▸ nid_mem_nids d)) hkr
      · exact ih hd2 hmem

/-- Decomposition of the visited ids for a tree whose root is applicable and
whose children form a mutually-exclusive branch group followed by ordinary
siblings: the start branch is descended into, the alternative branches and
the end marker contribute only their own ids, and the trailing siblings are
traversed with the `process_child` flag restored to true. -/
theorem touched_branch_group (p : String) (pi si ei : NodeInfo)
    (scs ecs mids post : List Node)
    (hpi : pi.evaluate_for_platform p = true)
    (hsi : si.is_start = true)
    (hsieval : si.evaluate_for_platform p = true)
    (hmide : ∀ c ∈ mids, c.info.is_end = false)
    (hei : ei.is_end = true) :
    touched (Node.mk pi (Node.mk si scs :: (mids ++ Node.mk ei ecs :: post))) p true =
      pi.nid :: ((si.nid :: touchedChildren scs p true)
        ++ (mids.map (fun c => c.info.nid) ++ (ei.nid :: touchedChildren post p true))) := by
  have h1 : touched (Node.mk pi (Node.mk si scs :: (mids ++ Node.mk ei ecs :: post))) p true =
      pi.nid :: touchedChildren (Node.mk si scs :: (mids ++ Node.mk ei ecs :: post)) p true := by
    simp [touched, hpi]
  rw [h1]
  have h2 : touchedChildren (Node.mk si scs :: (mids ++ Node.mk ei ecs :: post)) p true =
      touched (Node.mk si scs) p true ++
        touchedChildren (mids ++ Node.mk ei ecs :: post) p false := by
    simp only [touchedChildren, Node.info, hsieval, hsi]
    simp
  rw [h2]
  have h3 : touched (Node.mk si scs) p true = si.nid :: touchedChildren scs p true := by
    simp [touched, hsieval]
  rw [h3]
  rw [touchedChildren_conts mids (Node.mk ei ecs :: post) p hmide]
  have h4 : touchedChildren (Node.mk ei ecs :: post) p false =
      ei.nid :: touchedChildren post p true := by
    simp only [touchedChildren, Node.info]
    rw [touched_not_processed (Node.mk ei ecs) p false (by simp)]
    simp [hei, Node.info]
  rw [h4]

theorem platMem_nil (k : Nat) (q : String) : ¬ platMem [] k q := by
  simp [platMem, assocLookup]

theorem platMem_walk_iff (tree : Node) (p : String) (k : Nat) :
    platMem (TreeAssociator.walk tree p []) k p ↔ k ∈ touched tree p true := by
  unfold TreeAssociator.walk
  rw [platMem_associate tree p [] true k p]
  simp [platMem_nil]

/-- A tree whose root has, as children, a mutually-exclusive branch group
(start node with children `scs`, alternative branches `mids`, end node
with children `ecs`) followed by further siblings `post`. -/
def branchGroupTree (pi si ei : NodeInfo) (scs ecs mids post : List Node) : Node :=
  Node.mk pi (Node.mk si scs :: (mids ++ Node.mk ei ecs :: post))

/-- C1.  Mutual exclusion of branch groups: in a tree containing a
mutually-exclusive group (a starts-group node followed by sibling
continues-group nodes and an ends-group node, each possibly carrying
code-node descendants) under an applicable parent, for a platform whose
evaluation capability reports the first branch applicable and the later
alternative branches not taken, a single `TreeAssociator.walk` pass
records the platform's name on the first (taken) branch's descendants
and never on any descendant of a later alternative branch in the same
group, and after the ends-group node traversal of subsequent siblings
resumes normally (they are visited, and the children of applicable ones
are visited and recorded). -/
theorem C1_branch_group_mutual_exclusion (p : String) (pi si ei : NodeInfo)
    (scs ecs mids post : List Node)
    (hpi : pi.evaluate_for_platform p = true)
    (hsi : si.is_start = true)
    (hsieval : si.evaluate_for_platform p = true)
    (hmidc : ∀ c ∈ mids, c.info.is_cont = true)
    (hmide : ∀ c ∈ mids, c.info.is_end = false)
    (hmidn : ∀ c ∈ mids, c.info.evaluate_for_platform p = false)
    (hei : ei.is_end = true)
    (hpost : ∀ q ∈ post, q.info.is_start = false ∧ q.info.is_cont = false)
    (hnodup : (nids (branchGroupTree pi si ei scs ecs mids post)).Nodup) :
    (∀ c ∈ scs, platMem (TreeAssociator.walk
        (branchGroupTree pi si ei scs ecs mids post) p []) c.info.nid p)
    ∧ (∀ c ∈ mids, ∀ k ∈ nidsList c.children, NodeAssociationMap.get_association
        (TreeAssociator.walk (branchGroupTree pi si ei scs ecs mids post) p []) k = none)
    ∧ (∀ q ∈ post, platMem (TreeAssociator.walk
        (branchGroupTree pi si ei scs ecs mids post) p []) q.info.nid p)
    ∧ (∀ q ∈ post, q.info.evaluate_for_platform p = true →
        ∀ d ∈ q.children, platMem (TreeAssociator.walk
          (branchGroupTree pi si ei scs ecs mids post) p []) d.info.nid p) := by
  have htc := touched_branch_group p pi si ei scs ecs mids post hpi hsi hsieval hmide hei
  have hmem : ∀ k, k ∈ touched (branchGroupTree pi si ei scs ecs mids post) p true ↔
      (k = pi.nid ∨ (k = si.nid ∨ k ∈ touchedChildren scs p true)
        ∨ k ∈ mids.map (fun c => c.info.nid)
        ∨ (k = ei.nid ∨ k ∈ touchedChildren post p true)) := by
    intro k
    rw [branchGroupTree, htc]
    simp only [List.mem_cons, List.mem_append]
  refine ⟨?_, ?_, ?_, ?_⟩
  · intro c hc
    rw [platMem_walk_iff, hmem]
    exact Or.inr (Or.inl (Or.inr (mem_touchedChildren_of_mem scs c p hc true)))
  · intro c hc k hk
    have hknids : k ∈ nidsList mids :=
      mem_nidsList_of_mem mids c k hc (mem_nids_of_mem_children c k hk)
    have hrest : (nids (Node.mk si scs) ++ (nidsList mids
        ++ (nids (Node.mk ei ecs) ++ nidsList post))).Nodup := by
      have : nids (branchGroupTree pi si ei scs ecs mids post) =
          pi.nid :: (nids (Node.mk si scs) ++ (nidsList mids
            ++ (nids (Node.mk ei ecs) ++ nidsList post))) := by
        simp [branchGroupTree, nids, nidsList, nidsList_append]
      rw [this] at hnodup
      exact (List.nodup_cons.mp hnodup).2
    have hroot : pi.nid ∉ (nids (Node.mk si scs) ++ (nidsList mids
        ++ (nids (Node.mk ei ecs) ++ nidsList post))) := by
      have : nids (branchGroupTree pi si ei scs ecs mids post) =
          pi.nid :: (nids (Node.mk si scs) ++ (nidsList mids
            ++ (nids (Node.mk ei ecs) ++ nidsList post))) := by
        simp [branchGroupTree, nids, nidsList, nidsList_append]
      rw [this] at hnodup
      exact (List.nodup_cons.mp hnodup).1
    rw [List.nodup_append] at hrest
    obtain ⟨hnd_start, hrest2, hdisj_start⟩ := hrest
    rw [List.nodup_append] at hrest2
    obtain ⟨hnd_mids, hrest3, hdisj_mids⟩ := hrest2
    have hnot : k ∉ touched (branchGroupTree pi si ei scs ecs mids post) p true := by
      rw [hmem]
      push_neg
      refine ⟨?_, ⟨?_, ?_⟩, ?_, ?_, ?_⟩
      · intro he
        exact hroot (he ▸ List.mem_append_right _ (List.mem_append_left _ hknids))
      · intro he
        have hsin : si.nid ∈ nids (Node.mk si scs) := by simp [nids]
        exact (hdisj_start (he ▸ hsin)) (List.mem_append_left _ hknids)
      · intro hks
        have hks' : k ∈ nids (Node.mk si scs) := by
          have := touchedChildren_subset_nidsList scs p true k hks
          simp [nids, this]
        exact (hdisj_start hks') (List.mem_append_left _ hknids)
      · exact descendant_not_top mids c k hnd_mids hc hk
      · intro he
        have hein : ei.nid ∈ nids (Node.mk ei ecs) ++ nidsList post := by
          simp [nids]
        exact (hdisj_mids hknids) (he ▸ hein)
      · intro hkp
        have hkp' : k ∈ nids (Node.mk ei ecs) ++ nidsList post :=
          List.mem_append_right _ (touchedChildren_subset_nidsList post p true k hkp)
        exact (hdisj_mids hknids) hkp'
    unfold TreeAssociator.walk NodeAssociationMap.get_association
    rw [lookup_associate_not_touched _ p [] true k hnot]
    rfl
  · intro q hq
    rw [platMem_walk_iff, hmem]
    exact Or.inr (Or.inr (Or.inr (Or.inr
      (mem_touchedChildren_of_mem post q p hq true))))
  · intro q hq heval d hd
    rw [platMem_walk_iff, hmem]
    refine Or.inr (Or.inr (Or.inr (Or.inr ?_)))
    refine touchedChildren_plain_flag post p hpost q hq d.info.nid ?_
    match q, heval, hd with
    | .mk qi qcs, heval, hd =>
      simp only [Node.info] at heval
      simp only [Node.children] at hd
      simp only [touched, heval, Bool.and_true, if_true, List.mem_cons]
      exact Or.inr (mem_touchedChildren_of_mem qcs d p hd true)

theorem platMem_walk (tree : Node) (p : String) (m : AssocMap) (k : Nat) (q : String) :
    platMem (TreeAssociator.walk tree p m) k q ↔
      platMem m k q ∨ (q = p ∧ k ∈ touched tree p true) := by
  unfold TreeAssociator.walk
  exact platMem_associate tree p m true k q

/-- C6.  Unconditional recording on visit: whenever
`TreeAssociator._associate_nodes` is invoked on a node — with any
`process_children` flag and before any applicability evaluation — the
current platform's name is recorded against that node; in particular a
branch node that is not descended into (the flag is false, or its own
applicability evaluates false) carries the platform on its own entry
while the associations of all other nodes, its descendants included,
are left unchanged. -/
theorem C6_record_on_visit (n : Node) (p : String) (m m2 : AssocMap) (pc pc2 : Bool)
    (h : (pc2 && n.info.evaluate_for_platform p) = false) :
    platMem (associate_nodes n p m pc).1 n.info.nid p
    ∧ associate_nodes n p m2 pc2 = (NodeAssociationMap.add_platform m2 n.info.nid p, false)
    ∧ (∀ k, k ≠ n.info.nid →
        assocLookup (associate_nodes n p m2 pc2).1 k = assocLookup m2 k) := by
  refine ⟨?_, associate_nodes_not_processed n p m2 pc2 h, ?_⟩
  · rw [platMem_associate n p m pc n.info.nid p]
    exact Or.inr ⟨rfl, nid_mem_touched n p pc⟩
  · intro k hk
    rw [associate_nodes_not_processed n p m2 pc2 h]
    exact assocLookup_add_platform_ne m2 k n.info.nid p (fun he => hk he.symm)

/-- C7.  Set-key order independence: two sequences of Associator passes
that record the same platform names in different orders (here `p1` then
`p2` against `p2` then `p1`, over any tree, initial association map and
node) produce the same frozen platform-set key — the `Finset` of the
node's record, which is what `PlatformMapper._map_node` keys both maps
by. -/
theorem C7_order_independence (tree : Node) (p1 p2 : String) (m : AssocMap) (k : Nat) :
    ((NodeAssociationMap.get_association
        (TreeAssociator.walk tree p2 (TreeAssociator.walk tree p1 m)) k).getD []).toFinset =
      ((NodeAssociationMap.get_association
        (TreeAssociator.walk tree p1 (TreeAssociator.walk tree p2 m)) k).getD []).toFinset := by
  apply Finset.ext
  intro q
  simp only [List.mem_toFinset]
  have h1 : q ∈ ((NodeAssociationMap.get_association
      (TreeAssociator.walk tree p2 (TreeAssociator.walk tree p1 m)) k).getD []) ↔
      platMem (TreeAssociator.walk tree p2 (TreeAssociator.walk tree p1 m)) k q := Iff.rfl
  have h2 : q ∈ ((NodeAssociationMap.get_association
      (TreeAssociator.walk tree p1 (TreeAssociator.walk tree p2 m)) k).getD []) ↔
      platMem (TreeAssociator.walk tree p1 (TreeAssociator.walk tree p2 m)) k q := Iff.rfl
  rw [h1, h2, platMem_walk, platMem_walk, platMem_walk, platMem_walk]
  tauto

/-- C8.  Association records only grow: a platform name present in a
node's record is still present after `prepare_node`, after a map-level
`add_platform`, after any `TreeAssociator._associate_nodes` call and
after a full `TreeAssociator.walk` pass; and the record-level
`add_platform` is idempotent — adding a name already present leaves the
record unchanged. -/
theorem C8_records_only_grow (m : AssocMap) (k j : Nat) (p q : String) (n : Node)
    (pc : Bool) (ps : List String) (hq : platMem m k q) (hps : q ∈ ps) :
    platMem (NodeAssociationMap.prepare_node m j) k q
    ∧ platMem (NodeAssociationMap.add_platform m j p) k q
    ∧ platMem (associate_nodes n p m pc).1 k q
    ∧ platMem (TreeAssociator.walk n p m) k q
    ∧ NodeAssociation.add_platform ps q = ps := by
  refine ⟨platMem_prepare m k j q hq, ?_, ?_, ?_, ?_⟩
  · rw [platMem_add_platform]
    exact Or.inl hq
  · rw [platMem_associate]
    exact Or.inl hq
  · rw [platMem_walk]
    exact Or.inl hq
  · unfold NodeAssociation.add_platform
    simp [hps]

/-! Lemmas and derived measures for the mapper aggregation. -/

/-- Total of all values of a counter map. -/
def counterTotal {α : Type} (l : List (α × Nat)) : Nat :=
  (l.map Prod.snd).sum

/-- Dict lookup in the file map by frozen platform-set key. -/
def fmLookup : List (Finset String × List (String × Nat)) → Finset String →
    Option (List (String × Nat))
  | [], _ => none
  | (k', v) :: rest, key => if k' = key then some v else fmLookup rest key

/-- Per-file count stored in the file map under a platform-set key,
reading absent entries as zero. -/
def fileMapGet (fm : List (Finset String × List (String × Nat))) (key : Finset String)
    (fn : String) : Nat :=
  counterGet ((fmLookup fm key).getD []) fn

mutual
/-- The number of code lines the mapper is supposed to account for in a
subtree: the `num_lines` of every code node, with subtrees rooted at
file nodes outside the codebase excluded. -/
def countedLines (cb : List String) (n : Node) : Nat :=
  match n with
  | .mk i cs =>
    if i.is_file && !(i.filename ∈ cb) then 0
    else (if i.has_num_lines && !i.is_file then i.num_lines else 0) + countedLinesList cb cs

def countedLinesList (cb : List String) (cs : List Node) : Nat :=
  match cs with
  | [] => 0
  | c :: rest => countedLines cb c + countedLinesList cb rest
end

theorem counterTotal_bumpCounter {α : Type} [DecidableEq α] (l : List (α × Nat))
    (key : α) (n : Nat) : counterTotal (bumpCounter l key n) = counterTotal l + n := by
  induction l with
  | nil => simp [bumpCounter, counterTotal]
  | cons hd tl ih =>
    obtain ⟨k', v⟩ := hd
    by_cases hk : k' = key <;> simp [bumpCounter, counterTotal, hk] <;>
      simp [counterTotal] at ih <;> omega

theorem counterGet_bumpCounter {α : Type} [DecidableEq α] (l : List (α × Nat))
    (key key2 : α) (n : Nat) :
    counterGet (bumpCounter l key n) key2 =
      counterGet l key2 + (if key2 = key then n else 0) := by
  induction l with
  | nil =>
    by_cases hk : key = key2
    · subst hk
      simp [bumpCounter, counterGet]
    · have hk2 : ¬ key2 = key := fun he => hk he.symm
      simp [bumpCounter, counterGet, hk, hk2]
  | cons hd tl ih =>
    obtain ⟨k', v⟩ := hd
    by_cases hk : k' = key
    · subst hk
      by_cases h2 : k' = key2
      · subst h2
        simp [bumpCounter, counterGet]
      · have h2s : ¬ key2 = k' := fun he => h2 he.symm
        simp [bumpCounter, counterGet, h2, h2s]
    · by_cases h2 : k' = key2
      · subst h2
        simp [bumpCounter, counterGet, hk]
      · simp [bumpCounter, counterGet, hk, h2, ih]

theorem keys_bumpCounter {α : Type} [DecidableEq α] (l : List (α × Nat)) (key : α) (n : Nat) :
    (bumpCounter l key n).map Prod.fst =
      if key ∈ l.map Prod.fst then l.map Prod.fst else l.map Prod.fst ++ [key] := by
  induction l with
  | nil => simp [bumpCounter]
  | cons hd tl ih =>
    obtain ⟨k', v⟩ := hd
    by_cases hk : k' = key
    · subst hk
      simp [bumpCounter]
    · simp only [bumpCounter, hk, if_false, List.map_cons, List.mem_cons]
      by_cases hmem : key ∈ tl.map Prod.fst
      · simp [hmem, ih, Ne.symm hk]
      · simp [hmem, ih, Ne.symm hk]

theorem nodup_keys_bumpCounter {α : Type} [DecidableEq α] (l : List (α × Nat)) (key : α)
    (n : Nat) (h : (l.map Prod.fst).Nodup) : ((bumpCounter l key n).map Prod.fst).Nodup := by
  rw [keys_bumpCounter]
  by_cases hmem : key ∈ l.map Prod.fst
  · simp [hmem, h]
  · simp only [hmem, if_false]
    exact List.Nodup.append h (List.nodup_singleton key)
      (by intro a ha hb; simp at hb; exact hmem (hb ▸ ha))

theorem bumpCounter_ne_nil {α : Type} [DecidableEq α] (l : List (α × Nat)) (key : α)
    (n : Nat) : bumpCounter l key n ≠ [] := by
  match l with
  | [] => simp [bumpCounter]
  | (k', v) :: rest =>
    by_cases hk : k' = key <;> simp [bumpCounter, hk]

theorem fmLookup_bumpFileMap_self (fm : List (Finset String × List (String × Nat)))
    (key : Finset String) (fn : String) (n : Nat) :
    fmLookup (bumpFileMap fm key fn n) key =
      some (bumpCounter ((fmLookup fm key).getD []) fn n) := by
  induction fm with
  | nil => simp [bumpFileMap, fmLookup]
  | cons hd tl ih =>
    obtain ⟨k', v⟩ := hd
    by_cases hk : k' = key <;> simp [bumpFileMap, fmLookup, hk, ih]

theorem fmLookup_bumpFileMap_ne (fm : List (Finset String × List (String × Nat)))
    (key key2 : Finset String) (fn : String) (n : Nat) (h : key2 ≠ key) :
    fmLookup (bumpFileMap fm key fn n) key2 = fmLookup fm key2 := by
  induction fm with
  | nil => simp [bumpFileMap, fmLookup, Ne.symm h]
  | cons hd tl ih =>
    obtain ⟨k', v⟩ := hd
    by_cases hk : k' = key
    · subst hk
      simp [bumpFileMap, fmLookup, Ne.symm h, ih]
    · by_cases h2 : k' = key2 <;> simp [bumpFileMap, fmLookup, hk, h2, ih, h]

theorem keys_bumpFileMap (fm : List (Finset String × List (String × Nat)))
    (key : Finset String) (fn : String) (n : Nat) :
    (bumpFileMap fm key fn n).map Prod.fst =
      if key ∈ fm.map Prod.fst then fm.map Prod.fst else fm.map Prod.fst ++ [key] := by
  induction fm with
  | nil => simp [bumpFileMap]
  | cons hd tl ih =>
    obtain ⟨k', v⟩ := hd
    by_cases hk : k' = key
    · subst hk
      simp [bumpFileMap]
    · simp only [bumpFileMap, hk, if_false, List.map_cons, List.mem_cons]
      by_cases hmem : key ∈ tl.map Prod.fst
      · simp [hmem, ih, Ne.symm hk]
      · simp [hmem, ih, Ne.symm hk]

mutual
/-- Any property of the aggregation state preserved by `bumpState` is
preserved by `PlatformMapper._map_node`. -/
theorem map_node_preserves (P : MapperState → Prop)
    (hbump : ∀ st key fn n, P st → P (bumpState st key fn n))
    (cb : List String) (fn : String) (n : Node) (m : AssocMap) (st : MapperState)
    (hst : P st) : P (map_node cb fn n m st) := by
  match n with
  | .mk i cs =>
    by_cases hskip : (i.is_file && !(decide (i.filename ∈ cb))) = true
    · simpa [map_node, hskip] using hst
    · simp only [map_node, hskip, Bool.false_eq_true, if_false]
      by_cases hcode : (i.has_num_lines && !i.is_file) = true
      · simp only [hcode, if_true]
        cases hassoc : NodeAssociationMap.get_association m i.nid with
        | none =>
          exact mapChildren_preserves P hbump cb fn cs m _ (hbump st _ fn i.num_lines hst)
        | some ps =>
          exact mapChildren_preserves P hbump cb fn cs m _ (hbump st _ fn i.num_lines hst)
      · simp only [hcode, Bool.false_eq_true, if_false]
        exact mapChildren_preserves P hbump cb fn cs m st hst

theorem mapChildren_preserves (P : MapperState → Prop)
    (hbump : ∀ st key fn n, P st → P (bumpState st key fn n))
    (cb : List String) (fn : String) (cs : List Node) (m : AssocMap) (st : MapperState)
    (hst : P st) : P (mapChildren cb fn cs m st) := by
  match cs with
  | [] => simpa [mapChildren] using hst
  | c :: rest =>
    simp only [mapChildren]
    exact mapChildren_preserves P hbump cb fn rest m _
      (map_node_preserves P hbump cb fn c m st hst)
end

mutual
/-- Conservation at the node level: one `_map_node` call adds exactly the
counted code lines of the subtree to the line map's total. -/
theorem counterTotal_map_node (cb : List String) (fn : String) (n : Node) (m : AssocMap)
    (st : MapperState) :
    counterTotal (map_node cb fn n m st).line_map =
      counterTotal st.line_map + countedLines cb n := by
  match n with
  | .mk i cs =>
    by_cases hskip : (i.is_file && !(decide (i.filename ∈ cb))) = true
    · simp [map_node, countedLines, hskip]
    · simp only [map_node, countedLines, hskip, Bool.false_eq_true, if_false]
      by_cases hcode : (i.has_num_lines && !i.is_file) = true
      · simp only [hcode, if_true]
        cases hassoc : NodeAssociationMap.get_association m i.nid with
        | none =>
          rw [counterTotal_mapChildren cb fn cs m _]
          simp only [bumpState, counterTotal_bumpCounter]
          omega
        | some ps =>
          rw [counterTotal_mapChildren cb fn cs m _]
          simp only [bumpState, counterTotal_bumpCounter]
          omega
      · simp only [hcode, Bool.false_eq_true, if_false]
        rw [counterTotal_mapChildren cb fn cs m st]
        omega

theorem counterTotal_mapChildren (cb : List String) (fn : String) (cs : List Node)
    (m : AssocMap) (st : MapperState) :
    counterTotal (mapChildren cb fn cs m st).line_map =
      counterTotal st.line_map + countedLinesList cb cs := by
  match cs with
  | [] => simp [mapChildren, countedLinesList]
  | c :: rest =>
    simp only [mapChildren, countedLinesList]
    rw [counterTotal_mapChildren cb fn rest m _, counterTotal_map_node cb fn c m st]
    omega
end

mutual
/-- If a `_map_node` call leaves the line map empty, it performed no
accumulation at all and returned its input state unchanged. -/
theorem map_node_of_empty (cb : List String) (fn : String) (n : Node) (m : AssocMap)
    (st : MapperState) (h : (map_node cb fn n m st).line_map = []) :
    map_node cb fn n m st = st := by
  match n with
  | .mk i cs =>
    by_cases hskip : (i.is_file && !(decide (i.filename ∈ cb))) = true
    · simp [map_node, hskip]
    · simp only [map_node, hskip, Bool.false_eq_true, if_false] at h ⊢
      by_cases hcode : (i.has_num_lines && !i.is_file) = true
      · simp only [hcode, if_true] at h ⊢
        cases hassoc : NodeAssociationMap.get_association m i.nid with
        | none =>
          rw [hassoc] at h
          have h2 := mapChildren_of_empty cb fn cs m _ h
          rw [h2] at h
          exact absurd h (bumpCounter_ne_nil st.line_map _ i.num_lines)
        | some ps =>
          rw [hassoc] at h
          have h2 := mapChildren_of_empty cb fn cs m _ h
          rw [h2] at h
          exact absurd h (bumpCounter_ne_nil st.line_map _ i.num_lines)
      · simp only [hcode, Bool.false_eq_true, if_false] at h ⊢
        exact mapChildren_of_empty cb fn cs m st h

theorem mapChildren_of_empty (cb : List String) (fn : String) (cs : List Node)
    (m : AssocMap) (st : MapperState) (h : (mapChildren cb fn cs m st).line_map = []) :
    mapChildren cb fn cs m st = st := by
  match cs with
  | [] => rfl
  | c :: rest =>
    simp only [mapChildren] at h ⊢
    have h2 := mapChildren_of_empty cb fn rest m _ h
    rw [h2] at h ⊢
    exact map_node_of_empty cb fn c m st h
end

theorem counterTotal_fold (cb : List String) (files : List FileEntry) (st : MapperState) :
    counterTotal ((files.foldl
        (fun acc f => map_node cb f.filename f.tree f.assoc acc) st).line_map) =
      counterTotal st.line_map + (files.map (fun f => countedLines cb f.tree)).sum := by
  induction files generalizing st with
  | nil => simp
  | cons f rest ih =>
    simp only [List.foldl_cons, List.map_cons, List.sum_cons]
    rw [ih, counterTotal_map_node]
    omega

theorem fold_preserves (P : MapperState → Prop)
    (hbump : ∀ st key fn n, P st → P (bumpState st key fn n))
    (cb : List String) (files : List FileEntry) (st : MapperState) (hst : P st) :
    P (files.foldl (fun acc f => map_node cb f.filename f.tree f.assoc acc) st) := by
  induction files generalizing st with
  | nil => exact hst
  | cons f rest ih =>
    simp only [List.foldl_cons]
    exact ih _ (map_node_preserves P hbump cb f.filename f.tree f.assoc st hst)

theorem fold_of_empty (cb : List String) (files : List FileEntry) (st : MapperState)
    (h : ((files.foldl
        (fun acc f => map_node cb f.filename f.tree f.assoc acc) st).line_map = [])) :
    files.foldl (fun acc f => map_node cb f.filename f.tree f.assoc acc) st = st := by
  induction files generalizing st with
  | nil => rfl
  | cons f rest ih =>
    simp only [List.foldl_cons] at h ⊢
    have h2 := ih _ h
    rw [h2] at h ⊢
    exact map_node_of_empty cb f.filename f.tree f.assoc st h

/-- The consistency invariant between the two aggregated outputs: both
maps carry exactly the same platform-set keys (in the same creation
order), and each line-map count equals the total of the per-file counts
stored in the file map under the same key. -/
def MapsConsistent (st : MapperState) : Prop :=
  st.line_map.map Prod.fst = st.file_map.map Prod.fst ∧
  ∀ key : Finset String,
    counterGet st.line_map key = counterTotal ((fmLookup st.file_map key).getD [])

theorem MapsConsistent_bumpState (st : MapperState) (key : Finset String) (fn : String)
    (n : Nat) (h : MapsConsistent st) : MapsConsistent (bumpState st key fn n) := by
  obtain ⟨h1, h2⟩ := h
  constructor
  · simp only [bumpState]
    rw [keys_bumpCounter, keys_bumpFileMap, h1]
  · intro key2
    simp only [bumpState]
    rw [counterGet_bumpCounter]
    by_cases hk : key2 = key
    · subst hk
      rw [fmLookup_bumpFileMap_self, Option.getD_some, counterTotal_bumpCounter, h2 key2]
      simp
    · rw [fmLookup_bumpFileMap_ne st.file_map key key2 fn n hk, h2 key2]
      simp [hk]

/-- C3.  Conservation of lines: for every state (any files, trees and
association maps), after `PlatformMapper.walk` the sum of the line map's
values over all platform-set keys equals the total of `num_lines` over
all code nodes of all in-codebase subtrees, and the platform-set keys are
pairwise distinct, so every line is attributed to exactly one key —
none double-counted or dropped. -/
theorem C3_conservation_of_lines (cb : List String) (state : CBIState) :
    counterTotal (PlatformMapper.walk cb MapperState.init state).line_map =
      (state.files.map (fun f => countedLines cb f.tree)).sum
    ∧ ((PlatformMapper.walk cb MapperState.init state).line_map.map Prod.fst).Nodup := by
  have hw : PlatformMapper.walk cb MapperState.init state =
      state.files.foldl
        (fun acc f => map_node cb f.filename f.tree f.assoc acc) MapperState.init := by
    simp [PlatformMapper.walk, MapperState.init]
  constructor
  · rw [hw, counterTotal_fold]
    simp [MapperState.init, counterTotal]
  · rw [hw]
    refine fold_preserves (fun s => ((s.line_map.map Prod.fst).Nodup)) ?_ cb state.files
      MapperState.init (by simp [MapperState.init])
    intro s key fn n hs
    exact nodup_keys_bumpCounter s.line_map key n hs

/-- C4.  Idempotence of aggregation: calling `PlatformMapper.walk` a
second time on the same state returns maps identical to the first
call's, and whenever the line map already has entries the previously
computed outputs are returned unchanged without recomputation. -/
theorem C4_aggregation_idempotent (cb : List String) (state : CBIState) (mp : MapperState)
    (h : mp.line_map ≠ []) :
    PlatformMapper.walk cb (PlatformMapper.walk cb MapperState.init state) state =
      PlatformMapper.walk cb MapperState.init state
    ∧ PlatformMapper.walk cb mp state = mp := by
  have hguard : ∀ mp2 : MapperState, mp2.line_map ≠ [] →
      PlatformMapper.walk cb mp2 state = mp2 := by
    intro mp2 h2
    show (if mp2.line_map.isEmpty = true then _ else mp2) = mp2
    rw [if_neg]
    simp [List.isEmpty_iff, h2]
  have hw : PlatformMapper.walk cb MapperState.init state =
      state.files.foldl
        (fun acc f => map_node cb f.filename f.tree f.assoc acc) MapperState.init := by
    simp [PlatformMapper.walk, MapperState.init]
  refine ⟨?_, hguard mp h⟩
  by_cases hr : (PlatformMapper.walk cb MapperState.init state).line_map = []
  · have heq : PlatformMapper.walk cb MapperState.init state = MapperState.init := by
      rw [hw]
      exact fold_of_empty cb state.files MapperState.init (hw ▸ hr)
    rw [heq]
    exact heq
  · rw [hguard _ hr]

/-- C5.  Unassociated attribution: a code node whose association-map
lookup returns the explicit absent result (`none`, distinct from an
empty record) has its line count added by `PlatformMapper._map_node` to
the distinguished empty platform-set entry of both the line map and the
file's entry of the file map, before its children are mapped. -/
theorem C5_unassociated_attribution (cb : List String) (fn : String) (i : NodeInfo)
    (cs : List Node) (m : AssocMap) (st : MapperState)
    (hcode : i.has_num_lines = true) (hfile : i.is_file = false)
    (habsent : NodeAssociationMap.get_association m i.nid = none) :
    map_node cb fn (Node.mk i cs) m st =
      mapChildren cb fn cs m (bumpState st (∅ : Finset String) fn i.num_lines)
    ∧ counterGet (bumpState st (∅ : Finset String) fn i.num_lines).line_map
        (∅ : Finset String) =
        counterGet st.line_map (∅ : Finset String) + i.num_lines
    ∧ fileMapGet (bumpState st (∅ : Finset String) fn i.num_lines).file_map
        (∅ : Finset String) fn =
        fileMapGet st.file_map (∅ : Finset String) fn + i.num_lines
    ∧ NodeAssociationMap.get_association m i.nid ≠ some [] := by
  refine ⟨?_, ?_, ?_, by rw [habsent]; exact fun he => Option.noConfusion he⟩
  · simp [map_node, hfile, hcode, habsent]
  · simp only [bumpState]
    rw [counterGet_bumpCounter]
    simp
  · simp only [bumpState, fileMapGet]
    rw [fmLookup_bumpFileMap_self, Option.getD_some, counterGet_bumpCounter]
    simp

/-- C9.  Codebase filtering: a file node whose filename is absent from
the codebase descriptor's file set contributes zero lines to both maps:
`PlatformMapper._map_node` returns its accumulator unchanged on such a
tree regardless of its contents or associations, and a
`PlatformMapper.walk` over a state containing that file produces the
same maps as the walk over the state without it. -/
theorem C9_codebase_filtering (cb : List String) (mp : MapperState)
    (pre post : List FileEntry) (fn : String) (i : NodeInfo) (cs : List Node)
    (m : AssocMap) (st : MapperState)
    (hf : i.is_file = true) (habs : i.filename ∉ cb) :
    map_node cb fn (Node.mk i cs) m st = st
    ∧ PlatformMapper.walk cb mp ⟨pre ++ ⟨fn, Node.mk i cs, m⟩ :: post⟩ =
        PlatformMapper.walk cb mp ⟨pre ++ post⟩ := by
  have hmn : ∀ st2 : MapperState, map_node cb fn (Node.mk i cs) m st2 = st2 := by
    intro st2
    simp [map_node, hf, habs]
  refine ⟨hmn st, ?_⟩
  show (if mp.line_map.isEmpty = true then _ else mp) =
    (if mp.line_map.isEmpty = true then _ else mp)
  by_cases hmp : mp.line_map.isEmpty = true
  · rw [if_pos hmp, if_pos hmp]
    rw [List.foldl_append, List.foldl_append]
    rw [List.foldl_cons]
    rw [hmn _]
  · rw [if_neg hmp, if_neg hmp]

/-- C10.  Line-map/file-map consistency: after `PlatformMapper.walk`
the line map and the file map carry exactly the same platform-set keys,
and for every key the line map's count equals the sum over all files of
the file map's per-file counts under that key. -/
theorem C10_line_file_consistency (cb : List String) (state : CBIState) :
    (PlatformMapper.walk cb MapperState.init state).line_map.map Prod.fst =
      (PlatformMapper.walk cb MapperState.init state).file_map.map Prod.fst
    ∧ ∀ key : Finset String,
        counterGet (PlatformMapper.walk cb MapperState.init state).line_map key =
          counterTotal
            ((fmLookup (PlatformMapper.walk cb MapperState.init state).file_map key).getD []) := by
  have hw : PlatformMapper.walk cb MapperState.init state =
      state.files.foldl
        (fun acc f => map_node cb f.filename f.tree f.assoc acc) MapperState.init := by
    simp [PlatformMapper.walk, MapperState.init]
  have hcons : MapsConsistent (PlatformMapper.walk cb MapperState.init state) := by
    rw [hw]
    refine fold_preserves MapsConsistent ?_ cb state.files MapperState.init ?_
    · intro s key fn n hs
      exact MapsConsistent_bumpState s key fn n hs
    · exact ⟨rfl, fun key => by simp [MapperState.init, counterGet, fmLookup, counterTotal]⟩
  exact hcons

/-! The concrete end-to-end scenario of the spec (§8): one file `"f.c"`
with a 3-line unconditional prologue, a 5-line block guarded by a
directive applicable only on platform `"p1"`, a 2-line block guarded by
the alternative (else) branch, the group-closing directive, and a 1-line
unconditional epilogue. -/

/-- A leaf code node with id `k` carrying `n` source lines. -/
def codeNode (k n : Nat) : Node :=
  Node.mk ⟨k, false, "", true, n, false, false, false, fun _ => true⟩ []

/-- The scenario tree for file `"f.c"`. -/
def e2eTree : Node :=
  Node.mk ⟨0, true, "f.c", false, 0, false, false, false, fun _ => true⟩
    [ codeNode 1 3
    , Node.mk ⟨2, false, "", false, 0, true, false, false, fun p => p == "p1"⟩ [codeNode 3 5]
    , Node.mk ⟨4, false, "", false, 0, false, true, false, fun _ => true⟩ [codeNode 5 2]
    , Node.mk ⟨6, false, "", false, 0, false, false, true, fun _ => true⟩ []
    , codeNode 7 1 ]

/-- The association map after one Associator pass for `"p1"` and one for
`"p2"` over the scenario tree. -/
def e2eAssoc : AssocMap :=
  TreeAssociator.walk e2eTree "p2" (TreeAssociator.walk e2eTree "p1" [])

/-- The aggregated maps produced by `PlatformMapper.walk` for the
scenario state. -/
def e2eResult : MapperState :=
  PlatformMapper.walk ["f.c"] MapperState.init ⟨[⟨"f.c", e2eTree, e2eAssoc⟩]⟩

/-- C2.  End-to-end scenario: for the one-file tree with a 3-line
prologue, a branch group guarding a 5-line block under a directive
applicable only on `"p1"` and a 2-line block under the else branch, and
a 1-line epilogue, one Associator pass per platform (`"p1"` then `"p2"`)
followed by `PlatformMapper.walk` produces a line map with exactly the
entries `{p1,p2} -> 4`, `{p1} -> 5`, `{p2} -> 2`, and a file map with
the same counts keyed by the file path `"f.c"`. -/
theorem C2_end_to_end :
    e2eResult.line_map =
      [(({"p1", "p2"} : Finset String), 4), (({"p1"} : Finset String), 5),
        (({"p2"} : Finset String), 2)]
    ∧ e2eResult.file_map =
      [(({"p1", "p2"} : Finset String), [("f.c", 4)]),
        (({"p1"} : Finset String), [("f.c", 5)]),
        (({"p2"} : Finset String), [("f.c", 2)])] := by
  constructor <;> decide

/-! Concrete instances exercising the theorems with hypotheses. -/

/-- Root info for the concrete branch-group instance. -/
def w1pi : NodeInfo := ⟨0, false, "", false, 0, false, false, false, fun _ => true⟩

/-- Start-of-group info applicable only on platform `"p1"`. -/
def w1si : NodeInfo := ⟨2, false, "", false, 0, true, false, false, fun p => p == "p1"⟩

/-- End-of-group info. -/
def w1ei : NodeInfo := ⟨6, false, "", false, 0, false, false, true, fun _ => true⟩

/-- A continues-group alternative branch, not applicable, guarding a
2-line code node. -/
def w1mid : Node := Node.mk ⟨4, false, "", false, 0, false, true, false, fun _ => false⟩
  [codeNode 5 2]

/-- The concrete branch-group tree used to instantiate the
mutual-exclusion theorem. -/
def w1Tree : Node := branchGroupTree w1pi w1si w1ei [codeNode 3 5] [] [w1mid] [codeNode 7 1]

theorem C1_branch_group_mutual_exclusion_witness :
    platMem (TreeAssociator.walk w1Tree "p1" []) (codeNode 3 5).info.nid "p1"
    ∧ NodeAssociationMap.get_association (TreeAssociator.walk w1Tree "p1" []) 5 = none
    ∧ platMem (TreeAssociator.walk w1Tree "p1" []) (codeNode 7 1).info.nid "p1" := by
  have h := C1_branch_group_mutual_exclusion "p1" w1pi w1si w1ei
    [codeNode 3 5] [] [w1mid] [codeNode 7 1]
    (by decide) (by decide) (by decide) (by decide) (by decide) (by decide)
    (by decide) (by decide) (by decide)
  exact ⟨h.1 (codeNode 3 5) (List.mem_cons_self _ _),
    h.2.1 w1mid (List.mem_cons_self _ _) 5 (by decide),
    h.2.2.1 (codeNode 7 1) (List.mem_cons_self _ _)⟩

theorem C4_aggregation_idempotent_witness :
    PlatformMapper.walk ["f.c"]
        (PlatformMapper.walk ["f.c"] MapperState.init ⟨[⟨"f.c", e2eTree, e2eAssoc⟩]⟩)
        ⟨[⟨"f.c", e2eTree, e2eAssoc⟩]⟩ =
      PlatformMapper.walk ["f.c"] MapperState.init ⟨[⟨"f.c", e2eTree, e2eAssoc⟩]⟩
    ∧ PlatformMapper.walk ["f.c"] e2eResult ⟨[⟨"f.c", e2eTree, e2eAssoc⟩]⟩ = e2eResult :=
  C4_aggregation_idempotent ["f.c"] ⟨[⟨"f.c", e2eTree, e2eAssoc⟩]⟩ e2eResult (by decide)

/-- Info of a 4-line code node never visited by any pass of the
end-to-end scenario. -/
def w5i : NodeInfo := ⟨9, false, "", true, 4, false, false, false, fun _ => true⟩

theorem C5_unassociated_attribution_witness :
    map_node ["f.c"] "f.c" (Node.mk w5i []) e2eAssoc MapperState.init =
      mapChildren ["f.c"] "f.c" [] e2eAssoc
        (bumpState MapperState.init (∅ : Finset String) "f.c" w5i.num_lines)
    ∧ counterGet (bumpState MapperState.init (∅ : Finset String) "f.c"
        w5i.num_lines).line_map (∅ : Finset String) =
        counterGet MapperState.init.line_map (∅ : Finset String) + w5i.num_lines
    ∧ fileMapGet (bumpState MapperState.init (∅ : Finset String) "f.c"
        w5i.num_lines).file_map (∅ : Finset String) "f.c" =
        fileMapGet MapperState.init.file_map (∅ : Finset String) "f.c" + w5i.num_lines
    ∧ NodeAssociationMap.get_association e2eAssoc w5i.nid ≠ some [] :=
  C5_unassociated_attribution ["f.c"] "f.c" w5i [] e2eAssoc MapperState.init
    rfl rfl (by decide)

theorem C6_record_on_visit_witness :
    platMem (associate_nodes (codeNode 1 3) "p1" [] true).1 (codeNode 1 3).info.nid "p1"
    ∧ associate_nodes (codeNode 1 3) "p1" [] false =
        (NodeAssociationMap.add_platform [] (codeNode 1 3).info.nid "p1", false)
    ∧ assocLookup (associate_nodes (codeNode 1 3) "p1" [] false).1 42 = assocLookup [] 42 := by
  have h := C6_record_on_visit (codeNode 1 3) "p1" [] [] true false rfl
  exact ⟨h.1, h.2.1, h.2.2 42 (by decide)⟩

theorem C8_records_only_grow_witness :
    platMem (NodeAssociationMap.prepare_node [(1, ["p1"])] 2) 1 "p1"
    ∧ platMem (NodeAssociationMap.add_platform [(1, ["p1"])] 2 "p2") 1 "p1"
    ∧ platMem (associate_nodes (codeNode 3 5) "p2" [(1, ["p1"])] true).1 1 "p1"
    ∧ platMem (TreeAssociator.walk (codeNode 3 5) "p2" [(1, ["p1"])]) 1 "p1"
    ∧ NodeAssociation.add_platform ["p1"] "p1" = ["p1"] :=
  C8_records_only_grow [(1, ["p1"])] 1 2 "p2" "p1" (codeNode 3 5) true ["p1"]
    (by decide) (by decide)

/-- Info of a file node for a file `"g.c"` outside the codebase. -/
def w9i : NodeInfo := ⟨0, true, "g.c", false, 0, false, false, false, fun _ => true⟩

theorem C9_codebase_filtering_witness :
    map_node ["f.c"] "g.c" (Node.mk w9i [codeNode 1 3]) [] MapperState.init = MapperState.init
    ∧ PlatformMapper.walk ["f.c"] MapperState.init
        ⟨[] ++ ⟨"g.c", Node.mk w9i [codeNode 1 3], []⟩ :: []⟩ =
        PlatformMapper.walk ["f.c"] MapperState.init ⟨[] ++ []⟩ :=
  C9_codebase_filtering ["f.c"] MapperState.init [] [] "g.c" w9i [codeNode 1 3] []
    MapperState.init rfl (by decide)
